import Mathlib

set_option maxHeartbeats 1000000

/- Shallow embedding of the Go repository Fast_BitFilter_MetaData.
   Package boolbits: BitSet (boolbits.go) and Entry (entry.go).
   Package bitmapper: GenerateBitMaps and NewEntry (bitmapper.go).
   Go uint64 words are modelled as Nat values below 2 ^ 64; Go int
   parameters are modelled as Int (with Int.tmod matching the truncating
   Go remainder operator). Go errors are modelled as Except String with
   the literal message text of the corresponding fmt.Errorf call. -/

namespace Boolbits

/-- Modulus of a Go uint64 word. -/
def wordModulus : Nat := 2 ^ 64

/-- Go struct BitSet from boolbits.go. The stored field numWords of the
    source always equals NumBits / 64; it is kept as the derived function
    BitSet.numWords here. -/
structure BitSet where
  Words : List Nat
  NumBits : Nat
deriving DecidableEq

/-- Derived word count, equal to the stored numWords field of the source. -/
def BitSet.numWords (b : BitSet) : Nat := b.NumBits / 64

/-- Representation invariant established by every constructor in the source:
    the word slice has exactly NumBits / 64 entries, NumBits is a positive
    multiple of 64, and each word is a uint64 value. -/
def BitSet.WF (b : BitSet) : Prop :=
  b.Words.length = b.NumBits / 64 ∧ b.NumBits % 64 = 0 ∧ 0 < b.NumBits ∧
    ∀ w ∈ b.Words, w < wordModulus

instance (b : BitSet) : Decidable b.WF := by
  unfold BitSet.WF
  infer_instance

/-- Go func NewBitSet (boolbits.go). numBits must be a positive multiple
    of 64; numWords = numBits / 64 words are allocated, all zero. -/
def NewBitSet (numBits : Int) : Except String BitSet :=
  if numBits ≤ 0 ∨ numBits.tmod 64 ≠ 0 then
    Except.error ("error: numBits must be a positive multiple of 64 (got "
      ++ toString numBits ++ ")")
  else
    Except.ok { Words := List.replicate (numBits.toNat / 64) 0, NumBits := numBits.toNat }

/-- Fuel-indexed population count; with fuel at least n it computes the
    number of set bits of n. -/
def popcountAux : Nat → Nat → Nat
  | 0, _ => 0
  | fuel + 1, n => if n = 0 then 0 else n % 2 + popcountAux fuel (n / 2)

/-- Population count of a Nat, mirroring bits.OnesCount64 applied to a
    uint64 word. -/
def popcount (n : Nat) : Nat := popcountAux n n

/-- Go method CountOnes (boolbits.go): sum of the per-word popcounts. -/
def BitSet.CountOnes (b : BitSet) : Nat := (b.Words.map popcount).sum

/-- Go method IsZero (boolbits.go): true iff every word is zero. -/
def BitSet.IsZero (b : BitSet) : Bool := b.Words.all (· == 0)

/-- Go method SetBit (boolbits.go). The source mutates the receiver in
    place and returns an error value; this is modelled as returning the
    state of the receiver after the call together with the error.
    Under the representation invariant the getD default is never used,
    since i / 64 < NumBits / 64 = Words.length for every in-range i. -/
def BitSet.SetBit (b : BitSet) (i : Int) : BitSet × Option String :=
  if i < 0 ∨ i ≥ (b.NumBits : Int) then
    (b, some ("SetBit: index " ++ toString i ++ " out of valid range [0, "
      ++ toString b.NumBits ++ ")"))
  else
    let wordIdx := i.toNat / 64
    let bitIdx := i.toNat % 64
    ({ b with Words := b.Words.set wordIdx ((b.Words.getD wordIdx 0) ||| (1 <<< bitIdx)) },
      none)

/-- Go method ClearBit (boolbits.go). The Go operator w &^ m clears in w
    the bits of m, i.e. w AND (m XOR allOnes) on uint64. Modelled like
    SetBit as a state transformer. -/
def BitSet.ClearBit (b : BitSet) (i : Int) : BitSet × Option String :=
  if i < 0 ∨ i ≥ (b.NumBits : Int) then
    (b, some ("ClearBit: index " ++ toString i ++ " out of valid range [0, "
      ++ toString b.NumBits ++ ")"))
  else
    let wordIdx := i.toNat / 64
    let bitIdx := i.toNat % 64
    ({ b with Words := b.Words.set wordIdx ((b.Words.getD wordIdx 0) &&& ((1 <<< bitIdx) ^^^ (wordModulus - 1))) }, none)

/-- Go method TestBit (boolbits.go): (Words[i / 64] >> (i % 64)) & 1 == 1. -/
def BitSet.TestBit (b : BitSet) (i : Int) : Except String Bool :=
  if i < 0 ∨ i ≥ (b.NumBits : Int) then
    Except.error ("TestBit: index " ++ toString i ++ " out of valid range [0, "
      ++ toString b.NumBits ++ ")")
  else
    Except.ok ((((b.Words.getD (i.toNat / 64) 0) >>> (i.toNat % 64)) &&& 1) == 1)

/-- Go func ensureSameSize (boolbits.go). -/
def ensureSameSize (a o : BitSet) : Option String :=
  if a.NumBits ≠ o.NumBits then some "bitset sizes differ" else none

/-- Go method And (boolbits.go): word-wise AND of two BitSets of equal
    size. The source loops i over numWords indexing both slices; under the
    representation invariant both slices have length numWords, which the
    zipWith below reproduces. -/
def BitSet.And (b o : BitSet) : Except String BitSet :=
  match ensureSameSize b o with
  | some err => Except.error err
  | none => Except.ok { Words := List.zipWith (· &&& ·) b.Words o.Words, NumBits := b.NumBits }

/-- Go method Or (boolbits.go): word-wise OR, same shape as And. -/
def BitSet.Or (b o : BitSet) : Except String BitSet :=
  match ensureSameSize b o with
  | some err => Except.error err
  | none => Except.ok { Words := List.zipWith (· ||| ·) b.Words o.Words, NumBits := b.NumBits }

/-- Go method Xor (boolbits.go): word-wise XOR, same shape as And. -/
def BitSet.Xor (b o : BitSet) : Except String BitSet :=
  match ensureSameSize b o with
  | some err => Except.error err
  | none => Except.ok { Words := List.zipWith (· ^^^ ·) b.Words o.Words, NumBits := b.NumBits }

/-- Go complement of a single uint64 word: ^w = w XOR allOnes. -/
def wordNot (w : Nat) : Nat := w ^^^ (wordModulus - 1)

/-- Go method Not (boolbits.go): word-wise complement, never fails. -/
def BitSet.Not (b : BitSet) : BitSet :=
  { Words := b.Words.map wordNot, NumBits := b.NumBits }

/-- Go method Equals (boolbits.go): false when NumBits differ, otherwise
    word-wise comparison over the numWords words, which under the
    representation invariant is the whole word slice. -/
def BitSet.Equals (b o : BitSet) : Bool :=
  b.NumBits == o.NumBits && b.Words == o.Words

/-- Value of one hex character, as in fromHexChar of the Go encoding slash hex
    package: digits, lowercase a to f, uppercase A to F. -/
def hexDigitValue (c : Char) : Option Nat :=
  if 48 ≤ c.toNat ∧ c.toNat ≤ 57 then some (c.toNat - 48)
  else if 97 ≤ c.toNat ∧ c.toNat ≤ 102 then some (c.toNat - 87)
  else if 65 ≤ c.toNat ∧ c.toNat ≤ 70 then some (c.toNat - 55)
  else none

/-- Go hex.DecodeString: consumes two hex characters per output byte,
    failing on a non-hex character or an odd-length input. -/
def hexDecode : List Char → Option (List Nat)
  | [] => some []
  | [_] => none
  | c1 :: c2 :: rest =>
    match hexDigitValue c1, hexDigitValue c2, hexDecode rest with
    | some hi, some lo, some tail => some ((hi * 16 + lo) :: tail)
    | _, _, _ => none

/-- Lowercase hex digit character for a value below 16, as in the Go hex
    package table 0123456789abcdef. -/
def hexEncodeChar (v : Nat) : Char :=
  Char.ofNat (if v < 10 then 48 + v else 87 + v)

/-- Go hex.EncodeToString on one byte: high nibble first. -/
def hexEncodeByte (b : Nat) : List Char :=
  [hexEncodeChar (b / 16), hexEncodeChar (b % 16)]

/-- Go hex.EncodeToString over a byte slice. -/
def hexEncode : List Nat → List Char
  | [] => []
  | b :: rest => hexEncodeByte b ++ hexEncode rest

/-- One word packed from 8 bytes, most significant byte first, as in the
    inner loop of NewBitSetFromHex: w is ored with data[offset+j]
    shifted left by (7-j)*8 for j = 0 to 7. -/
def wordOfBytes8 (b0 b1 b2 b3 b4 b5 b6 b7 : Nat) : Nat :=
  (b0 <<< 56) ||| (b1 <<< 48) ||| (b2 <<< 40) ||| (b3 <<< 32) |||
    (b4 <<< 24) ||| (b5 <<< 16) ||| (b6 <<< 8) ||| b7

/-- The word-packing loop of NewBitSetFromHex: word i comes from the 8
    bytes at offset i*8. -/
def bytesToWords : List Nat → List Nat
  | b0 :: b1 :: b2 :: b3 :: b4 :: b5 :: b6 :: b7 :: rest =>
    wordOfBytes8 b0 b1 b2 b3 b4 b5 b6 b7 :: bytesToWords rest
  | _ => []

/-- The byte-extraction in ToHex: buf[offset+j] = byte(w >> ((7-j)*8)),
    where the Go byte conversion truncates modulo 256. -/
def wordBytes (w : Nat) : List Nat :=
  [(w >>> 56) % 256, (w >>> 48) % 256, (w >>> 40) % 256, (w >>> 32) % 256,
    (w >>> 24) % 256, (w >>> 16) % 256, (w >>> 8) % 256, w % 256]

/-- The byte-emission loop of ToHex over the word slice. -/
def wordsToBytes : List Nat → List Nat
  | [] => []
  | w :: rest => wordBytes w ++ wordsToBytes rest

/-- Go func NewBitSetFromHex (boolbits.go): validates numBits, then the
    string length numBits/4, decodes the hex string into bytes, checks the
    byte count numBits/8 and packs the bytes big-endian into words. -/
def NewBitSetFromHex (numBits : Int) (hexStr : List Char) : Except String BitSet :=
  if numBits ≤ 0 ∨ numBits.tmod 64 ≠ 0 then
    Except.error ("error: numBits must be a positive multiple of 64 (got "
      ++ toString numBits ++ ")")
  else if hexStr.length ≠ numBits.toNat / 4 then
    Except.error ("error: hex string must be exactly " ++ toString (numBits.toNat / 4)
      ++ " characters long (got " ++ toString hexStr.length ++ ")")
  else
    match hexDecode hexStr with
    | none => Except.error "encoding slash hex: invalid byte or length"
    | some data =>
      if data.length ≠ numBits.toNat / 8 then
        Except.error ("internal error: hex decoding mismatch, expected "
          ++ toString (numBits.toNat / 8) ++ " bytes, got " ++ toString data.length)
      else
        Except.ok { Words := bytesToWords data, NumBits := numBits.toNat }

/-- Go method ToHex (boolbits.go): bytes of word 0 first, most significant
    byte of each word first, encoded as lowercase hex. The source loops i
    over numWords; under the representation invariant the word slice has
    exactly numWords entries. -/
def BitSet.ToHex (b : BitSet) : List Char := hexEncode (wordsToBytes b.Words)

/-- Go struct Entry from entry.go: four named BitSets. The Go fields are
    pointers; absence (nil) is modelled at the operation boundaries by
    Option Entry operands. -/
structure Entry where
  Domain : BitSet
  Group : BitSet
  Name : BitSet
  Value : BitSet
deriving DecidableEq

/-- Go method Entry.And (entry.go): nil check on both operands, then the
    four per-field NumBits checks in order Domain, Group, Name, Value,
    each with its own error message, then the four BitSet.And calls. -/
def EntryAnd (e o : Option Entry) : Except String Entry :=
  match e, o with
  | none, _ => Except.error "cannot AND nil Entry"
  | some _, none => Except.error "cannot AND nil Entry"
  | some e, some o =>
    if e.Domain.NumBits ≠ o.Domain.NumBits then
      Except.error ("mismatched Domain bit lengths: " ++ toString e.Domain.NumBits
        ++ " vs " ++ toString o.Domain.NumBits)
    else if e.Group.NumBits ≠ o.Group.NumBits then
      Except.error ("mismatched Group bit lengths: " ++ toString e.Group.NumBits
        ++ " vs " ++ toString o.Group.NumBits)
    else if e.Name.NumBits ≠ o.Name.NumBits then
      Except.error ("mismatched Name bit lengths: " ++ toString e.Name.NumBits
        ++ " vs " ++ toString o.Name.NumBits)
    else if e.Value.NumBits ≠ o.Value.NumBits then
      Except.error ("mismatched Value bit lengths: " ++ toString e.Value.NumBits
        ++ " vs " ++ toString o.Value.NumBits)
    else
      match e.Domain.And o.Domain with
      | Except.error err => Except.error ("Domain AND error: " ++ err)
      | Except.ok domainRes =>
        match e.Group.And o.Group with
        | Except.error err => Except.error ("Group AND error: " ++ err)
        | Except.ok groupRes =>
          match e.Name.And o.Name with
          | Except.error err => Except.error ("Name AND error: " ++ err)
          | Except.ok nameRes =>
            match e.Value.And o.Value with
            | Except.error err => Except.error ("Value AND error: " ++ err)
            | Except.ok valueRes =>
              Except.ok { Domain := domainRes, Group := groupRes,
                          Name := nameRes, Value := valueRes }

/-- Go method Entry.Or (entry.go): same structure as Entry.And. -/
def EntryOr (e o : Option Entry) : Except String Entry :=
  match e, o with
  | none, _ => Except.error "cannot OR nil Entry"
  | some _, none => Except.error "cannot OR nil Entry"
  | some e, some o =>
    if e.Domain.NumBits ≠ o.Domain.NumBits then
      Except.error ("mismatched Domain bit lengths: " ++ toString e.Domain.NumBits
        ++ " vs " ++ toString o.Domain.NumBits)
    else if e.Group.NumBits ≠ o.Group.NumBits then
      Except.error ("mismatched Group bit lengths: " ++ toString e.Group.NumBits
        ++ " vs " ++ toString o.Group.NumBits)
    else if e.Name.NumBits ≠ o.Name.NumBits then
      Except.error ("mismatched Name bit lengths: " ++ toString e.Name.NumBits
        ++ " vs " ++ toString o.Name.NumBits)
    else if e.Value.NumBits ≠ o.Value.NumBits then
      Except.error ("mismatched Value bit lengths: " ++ toString e.Value.NumBits
        ++ " vs " ++ toString o.Value.NumBits)
    else
      match e.Domain.Or o.Domain with
      | Except.error err => Except.error ("Domain OR error: " ++ err)
      | Except.ok domainRes =>
        match e.Group.Or o.Group with
        | Except.error err => Except.error ("Group OR error: " ++ err)
        | Except.ok groupRes =>
          match e.Name.Or o.Name with
          | Except.error err => Except.error ("Name OR error: " ++ err)
          | Except.ok nameRes =>
            match e.Value.Or o.Value with
            | Except.error err => Except.error ("Value OR error: " ++ err)
            | Except.ok valueRes =>
              Except.ok { Domain := domainRes, Group := groupRes,
                          Name := nameRes, Value := valueRes }

/-- Go method Entry.Xor (entry.go): same structure as Entry.And. -/
def EntryXor (e o : Option Entry) : Except String Entry :=
  match e, o with
  | none, _ => Except.error "cannot XOR nil Entry"
  | some _, none => Except.error "cannot XOR nil Entry"
  | some e, some o =>
    if e.Domain.NumBits ≠ o.Domain.NumBits then
      Except.error ("mismatched Domain bit lengths: " ++ toString e.Domain.NumBits
        ++ " vs " ++ toString o.Domain.NumBits)
    else if e.Group.NumBits ≠ o.Group.NumBits then
      Except.error ("mismatched Group bit lengths: " ++ toString e.Group.NumBits
        ++ " vs " ++ toString o.Group.NumBits)
    else if e.Name.NumBits ≠ o.Name.NumBits then
      Except.error ("mismatched Name bit lengths: " ++ toString e.Name.NumBits
        ++ " vs " ++ toString o.Name.NumBits)
    else if e.Value.NumBits ≠ o.Value.NumBits then
      Except.error ("mismatched Value bit lengths: " ++ toString e.Value.NumBits
        ++ " vs " ++ toString o.Value.NumBits)
    else
      match e.Domain.Xor o.Domain with
      | Except.error err => Except.error ("Domain XOR error: " ++ err)
      | Except.ok domainRes =>
        match e.Group.Xor o.Group with
        | Except.error err => Except.error ("Group XOR error: " ++ err)
        | Except.ok groupRes =>
          match e.Name.Xor o.Name with
          | Except.error err => Except.error ("Name XOR error: " ++ err)
          | Except.ok nameRes =>
            match e.Value.Xor o.Value with
            | Except.error err => Except.error ("Value XOR error: " ++ err)
            | Except.ok valueRes =>
              Except.ok { Domain := domainRes, Group := groupRes,
                          Name := nameRes, Value := valueRes }

end Boolbits

namespace Bitmapper

open Boolbits

/-- The single-quote character, written by code point to keep the source
    free of quote literals. -/
def squote : String := String.mk [Char.ofNat 39]

/-- The dedup closure of GenerateBitMaps (bitmapper.go): keeps the first
    occurrence of each string in input order. The Go seen set always
    contains exactly the elements of the accumulated unique slice, so the
    membership test below is equivalent. -/
def dedup (input : List String) : List String :=
  input.foldl (fun unique v => if v ∈ unique then unique else unique ++ [v]) []

/-- The computeBitLength closure of GenerateBitMaps (bitmapper.go):
    smallest multiple of 64 at least count, with 64 for count zero. The Go
    parameter is an int that is a slice length, hence nonnegative, so the
    count <= 0 branch is count = 0 here. -/
def computeBitLength (count : Nat) : Nat :=
  if count = 0 then 64
  else if count % 64 = 0 then count
  else (count / 64 + 1) * 64

/-- The loop body of the assign closure of GenerateBitMaps (bitmapper.go):
    for each value at index idx, create a BitSet of bitlen bits, set bit
    idx, and record the pair. The Go map is modelled as an association
    list in iteration order; its keys (from dedup) are distinct, so
    List.lookup agrees with the Go map lookup. -/
def assignGo (bitlen : Nat) : Nat → List String → Except String (List (String × BitSet))
  | _, [] => Except.ok []
  | idx, v :: rest =>
    match NewBitSet (bitlen : Int) with
    | Except.error err =>
      Except.error ("failed to create BitSet of length " ++ toString bitlen ++ ": " ++ err)
    | Except.ok bs =>
      match bs.SetBit (idx : Int) with
      | (_, some err) =>
        Except.error ("failed to set bit " ++ toString idx ++ " for value "
          ++ squote ++ v ++ squote ++ ": " ++ err)
      | (bs2, none) =>
        match assignGo bitlen (idx + 1) rest with
        | Except.error err => Except.error err
        | Except.ok m => Except.ok ((v, bs2) :: m)

/-- The assign closure of GenerateBitMaps (bitmapper.go). -/
def assign (uniqueList : List String) : Except String (List (String × BitSet)) :=
  assignGo (computeBitLength uniqueList.length) 0 uniqueList

/-- Go func GenerateBitMaps (bitmapper.go): dedup each of the four input
    slices independently and assign one-hot BitSets to each. -/
def GenerateBitMaps (domains metadataGroupNames metadataNames metadataValues : List String) :
    Except String (List (String × BitSet) × List (String × BitSet) ×
      List (String × BitSet) × List (String × BitSet)) :=
  match assign (dedup domains) with
  | Except.error err => Except.error err
  | Except.ok domainMap =>
    match assign (dedup metadataGroupNames) with
    | Except.error err => Except.error err
    | Except.ok groupMap =>
      match assign (dedup metadataNames) with
      | Except.error err => Except.error err
      | Except.ok nameMap =>
        match assign (dedup metadataValues) with
        | Except.error err => Except.error err
        | Except.ok valueMap => Except.ok (domainMap, groupMap, nameMap, valueMap)

/-- Go struct bitmapper.Entry (bitmapper.go). -/
structure Entry where
  Domain : BitSet
  Group : BitSet
  Name : BitSet
  Value : BitSet
deriving DecidableEq

/-- Go func bitmapper.NewEntry (bitmapper.go): looks up the four keys in
    their maps in order domain, group, name, value, failing with a message
    naming the category and the key on the first miss. -/
def NewEntry (domainKey groupKey nameKey valueKey : String)
    (domainMap groupMap nameMap valueMap : List (String × BitSet)) :
    Except String Entry :=
  match domainMap.lookup domainKey with
  | none => Except.error ("domain key " ++ squote ++ domainKey ++ squote ++ " not found")
  | some domainBS =>
    match groupMap.lookup groupKey with
    | none => Except.error ("group key " ++ squote ++ groupKey ++ squote ++ " not found")
    | some groupBS =>
      match nameMap.lookup nameKey with
      | none => Except.error ("name key " ++ squote ++ nameKey ++ squote ++ " not found")
      | some nameBS =>
        match valueMap.lookup valueKey with
        | none => Except.error ("value key " ++ squote ++ valueKey ++ squote ++ " not found")
        | some valueBS =>
          Except.ok { Domain := domainBS, Group := groupBS, Name := nameBS, Value := valueBS }

end Bitmapper

namespace Boolbits

/- Supporting lemmas about popcount and word-level bit operations. -/

theorem popcountAux_congr : ∀ (f1 f2 n : Nat), n ≤ f1 → n ≤ f2 →
    popcountAux f1 n = popcountAux f2 n := by
  intro f1
  induction f1 with
  | zero =>
    intro f2 n h1 h2
    have hn : n = 0 := by omega
    subst hn
    cases f2 <;> simp [popcountAux]
  | succ f ih =>
    intro f2 n h1 h2
    by_cases hn : n = 0
    · subst hn
      cases f2 <;> simp [popcountAux]
    · obtain ⟨f2p, rfl⟩ : ∃ m, f2 = m + 1 := ⟨f2 - 1, by omega⟩
      simp only [popcountAux, if_neg hn]
      rw [ih f2p (n / 2) (by omega) (by omega)]

theorem popcount_zero : popcount 0 = 0 := rfl

theorem popcount_rec (n : Nat) : popcount n = n % 2 + popcount (n / 2) := by
  by_cases hn : n = 0
  · subst hn
    simp [popcount, popcountAux]
  · unfold popcount
    obtain ⟨m, rfl⟩ : ∃ m, n = m + 1 := ⟨n - 1, by omega⟩
    simp only [popcountAux, if_neg hn]
    exact congrArg (_ + ·) (popcountAux_congr m ((m + 1) / 2) ((m + 1) / 2) (by omega) (le_refl _))

theorem popcount_two_pow (k : Nat) : popcount (2 ^ k) = 1 := by
  induction k with
  | zero => rfl
  | succ k ih =>
    rw [popcount_rec]
    have h : 2 ^ (k + 1) = 2 * 2 ^ k := by ring
    have h1 : 2 ^ (k + 1) % 2 = 0 := by omega
    have h2 : 2 ^ (k + 1) / 2 = 2 ^ k := by omega
    rw [h1, h2, ih]

theorem popcount_two_pow_sub_one (n : Nat) : popcount (2 ^ n - 1) = n := by
  induction n with
  | zero => rfl
  | succ n ih =>
    rw [popcount_rec]
    have h : 2 ^ (n + 1) = 2 * 2 ^ n := by ring
    have hp : 0 < 2 ^ n := Nat.two_pow_pos n
    have h1 : (2 ^ (n + 1) - 1) % 2 = 1 := by omega
    have h2 : (2 ^ (n + 1) - 1) / 2 = 2 ^ n - 1 := by omega
    rw [h1, h2, ih]
    omega

theorem testBit_formula (w k : Nat) : (((w >>> k) &&& 1) == 1) = Nat.testBit w k := by
  rw [Nat.and_one_is_mod, Nat.shiftRight_eq_div_pow, Nat.testBit_to_div_mod]
  rcases Nat.mod_two_eq_zero_or_one (w / 2 ^ k) with h | h <;> simp [h]

theorem testBit_two_pow_mul (k a j : Nat) :
    (2 ^ k * a).testBit j = if j < k then false else a.testBit (j - k) := by
  have h := Nat.testBit_mul_pow_two_add a (Nat.two_pow_pos k) j
  rw [Nat.add_zero] at h
  rw [h]
  by_cases hj : j < k <;> simp [hj, Nat.zero_testBit]

theorem lor_two_pow_mul_add (k a b : Nat) (hb : b < 2 ^ k) :
    (2 ^ k * a) ||| b = 2 ^ k * a + b := by
  apply Nat.eq_of_testBit_eq
  intro j
  rw [Nat.testBit_lor, Nat.testBit_mul_pow_two_add a hb j, testBit_two_pow_mul]
  by_cases hj : j < k
  · simp [hj]
  · have hbj : b.testBit j = false := by
      apply Nat.testBit_lt_two_pow
      calc b < 2 ^ k := hb
        _ ≤ 2 ^ j := Nat.pow_le_pow_right (by omega) (by omega)
    simp [hj, hbj]

theorem land_div_two (a b : Nat) : (a &&& b) / 2 = (a / 2) &&& (b / 2) := by
  apply Nat.eq_of_testBit_eq
  intro i
  simp [Nat.testBit_div_two, Nat.testBit_land]

theorem lor_div_two (a b : Nat) : (a ||| b) / 2 = (a / 2) ||| (b / 2) := by
  apply Nat.eq_of_testBit_eq
  intro i
  simp [Nat.testBit_div_two, Nat.testBit_lor]

theorem xor_div_two (a b : Nat) : (a ^^^ b) / 2 = (a / 2) ^^^ (b / 2) := by
  apply Nat.eq_of_testBit_eq
  intro i
  simp [Nat.testBit_div_two, Nat.testBit_xor]

theorem mod_two_and_or (a b : Nat) :
    (a &&& b) % 2 + (a ||| b) % 2 = a % 2 + b % 2 := by
  have h1 := Nat.testBit_land a b 0
  have h2 := Nat.testBit_lor a b 0
  simp only [Nat.testBit_zero] at h1 h2
  rcases Nat.mod_two_eq_zero_or_one a with ha | ha <;>
    rcases Nat.mod_two_eq_zero_or_one b with hb | hb <;>
      rcases Nat.mod_two_eq_zero_or_one (a &&& b) with hc | hc <;>
        rcases Nat.mod_two_eq_zero_or_one (a ||| b) with hd | hd <;>
          simp [ha, hb, hc, hd] at h1 h2 ⊢

theorem mod_two_xor_and (a b : Nat) :
    (a ^^^ b) % 2 + (a &&& b) % 2 = (a ||| b) % 2 := by
  have h1 := Nat.testBit_land a b 0
  have h2 := Nat.testBit_lor a b 0
  have h3 := Nat.testBit_xor a b 0
  simp only [Nat.testBit_zero] at h1 h2 h3
  rcases Nat.mod_two_eq_zero_or_one a with ha | ha <;>
    rcases Nat.mod_two_eq_zero_or_one b with hb | hb <;>
      rcases Nat.mod_two_eq_zero_or_one (a &&& b) with hc | hc <;>
        rcases Nat.mod_two_eq_zero_or_one (a ||| b) with hd | hd <;>
          rcases Nat.mod_two_eq_zero_or_one (a ^^^ b) with he | he <;>
            simp [ha, hb, hc, hd, he] at h1 h2 h3 ⊢

theorem popcount_and_or (a : Nat) : ∀ b : Nat,
    popcount (a &&& b) + popcount (a ||| b) = popcount a + popcount b := by
  induction a using Nat.strong_induction_on with
  | _ a ih =>
    intro b
    by_cases ha : a = 0
    · subst ha
      simp [Nat.zero_and, Nat.zero_or, popcount_zero]
    · rw [popcount_rec (a &&& b), popcount_rec (a ||| b), popcount_rec a, popcount_rec b,
        land_div_two, lor_div_two]
      have hih := ih (a / 2) (Nat.div_lt_self (Nat.pos_of_ne_zero ha) one_lt_two) (b / 2)
      have hmod := mod_two_and_or a b
      omega

theorem popcount_xor_and (a : Nat) : ∀ b : Nat,
    popcount (a ^^^ b) + popcount (a &&& b) = popcount (a ||| b) := by
  induction a using Nat.strong_induction_on with
  | _ a ih =>
    intro b
    by_cases ha : a = 0
    · subst ha
      simp [Nat.zero_and, Nat.zero_or, Nat.zero_xor, popcount_zero]
    · rw [popcount_rec (a ^^^ b), popcount_rec (a &&& b), popcount_rec (a ||| b),
        land_div_two, lor_div_two, xor_div_two]
      have hih := ih (a / 2) (Nat.div_lt_self (Nat.pos_of_ne_zero ha) one_lt_two) (b / 2)
      have hmod := mod_two_xor_and a b
      omega

theorem sum_pc_zip_and_or : ∀ (l1 l2 : List Nat), l1.length = l2.length →
    ((List.zipWith (· &&& ·) l1 l2).map popcount).sum
      + ((List.zipWith (· ||| ·) l1 l2).map popcount).sum
      = (l1.map popcount).sum + (l2.map popcount).sum := by
  intro l1
  induction l1 with
  | nil =>
    intro l2 h
    cases l2 <;> simp_all
  | cons x xs ih =>
    intro l2 h
    cases l2 with
    | nil => simp at h
    | cons y ys =>
      simp only [List.zipWith_cons_cons, List.map_cons, List.sum_cons]
      have h1 := ih ys (by simpa using h)
      have h2 := popcount_and_or x y
      omega

theorem sum_pc_zip_xor_and : ∀ (l1 l2 : List Nat), l1.length = l2.length →
    ((List.zipWith (· ^^^ ·) l1 l2).map popcount).sum
      + ((List.zipWith (· &&& ·) l1 l2).map popcount).sum
      = ((List.zipWith (· ||| ·) l1 l2).map popcount).sum := by
  intro l1
  induction l1 with
  | nil =>
    intro l2 h
    cases l2 <;> simp_all
  | cons x xs ih =>
    intro l2 h
    cases l2 with
    | nil => simp at h
    | cons y ys =>
      simp only [List.zipWith_cons_cons, List.map_cons, List.sum_cons]
      have h1 := ih ys (by simpa using h)
      have h2 := popcount_xor_and x y
      omega

end Boolbits

namespace Boolbits

/- Supporting lemmas for the bit mutation operations. -/

theorem getD_set_self (l : List Nat) (k a : Nat) (h : k < l.length) :
    (l.set k a).getD k 0 = a := by
  rw [List.getD_eq_getElem _ _ (by simpa using h)]
  exact List.getElem_set_self (by simpa using h)

theorem getD_set_ne (l : List Nat) (m k a : Nat) (h : m ≠ k) :
    (l.set m a).getD k 0 = l.getD k 0 := by
  by_cases hk : k < l.length
  · rw [List.getD_eq_getElem _ _ (by simpa using hk), List.getD_eq_getElem _ _ hk]
    exact List.getElem_set_ne h _
  · rw [List.getD_eq_default _ _ (by simp; omega), List.getD_eq_default _ _ (by omega)]

theorem SetBit_ok_shape (b : BitSet) (i : Int) (h0 : 0 ≤ i) (hi : i < (b.NumBits : Int)) :
    b.SetBit i = (⟨b.Words.set (i.toNat / 64)
      ((b.Words.getD (i.toNat / 64) 0) ||| (1 <<< (i.toNat % 64))), b.NumBits⟩, none) := by
  have hc : ¬(i < 0 ∨ i ≥ (b.NumBits : Int)) := by omega
  simp only [BitSet.SetBit, if_neg hc]

theorem ClearBit_ok_shape (b : BitSet) (i : Int) (h0 : 0 ≤ i) (hi : i < (b.NumBits : Int)) :
    b.ClearBit i = (⟨b.Words.set (i.toNat / 64)
      ((b.Words.getD (i.toNat / 64) 0) &&& ((1 <<< (i.toNat % 64)) ^^^ (wordModulus - 1))),
      b.NumBits⟩, none) := by
  have hc : ¬(i < 0 ∨ i ≥ (b.NumBits : Int)) := by omega
  simp only [BitSet.ClearBit, if_neg hc]

theorem TestBit_ok_shape (b : BitSet) (j : Int) (h0 : 0 ≤ j) (hj : j < (b.NumBits : Int)) :
    b.TestBit j = Except.ok (Nat.testBit (b.Words.getD (j.toNat / 64) 0) (j.toNat % 64)) := by
  have hc : ¬(j < 0 ∨ j ≥ (b.NumBits : Int)) := by omega
  simp only [BitSet.TestBit, if_neg hc]
  exact congrArg Except.ok (testBit_formula _ _)

theorem testBit_or_shift (w k j : Nat) :
    Nat.testBit (w ||| (1 <<< k)) j = (Nat.testBit w j || decide (k = j)) := by
  rw [Nat.testBit_lor, Nat.one_shiftLeft, Nat.testBit_two_pow]

theorem testBit_and_mask (w k j : Nat) (hj : j < 64) :
    Nat.testBit (w &&& ((1 <<< k) ^^^ (wordModulus - 1))) j
      = (Nat.testBit w j && !(decide (k = j))) := by
  rw [Nat.testBit_land, Nat.testBit_xor, Nat.one_shiftLeft, Nat.testBit_two_pow]
  have hm : Nat.testBit (wordModulus - 1) j = true := by
    rw [wordModulus, Nat.testBit_two_pow_sub_one]
    simpa using hj
  rw [hm]
  cases h : decide (k = j) <;> cases hw : Nat.testBit w j <;> rfl

/- Supporting lemmas for the complement operation. -/

theorem wordNot_wordNot (w : Nat) : wordNot (wordNot w) = w :=
  Nat.xor_cancel_right _ _

theorem land_wordNot (w : Nat) (hw : w < wordModulus) : w &&& wordNot w = 0 := by
  apply Nat.eq_of_testBit_eq
  intro j
  rw [Nat.zero_testBit, Nat.testBit_land, wordNot, Nat.testBit_xor, wordModulus,
    Nat.testBit_two_pow_sub_one]
  by_cases hj : j < 64
  · simp [hj]
  · have hwj : w.testBit j = false := by
      apply Nat.testBit_lt_two_pow
      calc w < wordModulus := hw
        _ ≤ 2 ^ j := Nat.pow_le_pow_right (by omega) (by omega)
    simp [hj, hwj]

theorem lor_wordNot (w : Nat) (hw : w < wordModulus) : w ||| wordNot w = wordModulus - 1 := by
  apply Nat.eq_of_testBit_eq
  intro j
  rw [Nat.testBit_lor, wordNot, Nat.testBit_xor, wordModulus, Nat.testBit_two_pow_sub_one]
  by_cases hj : j < 64
  · simp [hj]
  · have hwj : w.testBit j = false := by
      apply Nat.testBit_lt_two_pow
      calc w < wordModulus := hw
        _ ≤ 2 ^ j := Nat.pow_le_pow_right (by omega) (by omega)
    simp [hj, hwj]

theorem map_wordNot_wordNot (l : List Nat) : (l.map wordNot).map wordNot = l := by
  induction l with
  | nil => rfl
  | cons x xs ih => simp [wordNot_wordNot, ih]

theorem zip_and_wordNot (l : List Nat) (h : ∀ w ∈ l, w < wordModulus) :
    List.zipWith (· &&& ·) l (l.map wordNot) = List.replicate l.length 0 := by
  induction l with
  | nil => rfl
  | cons x xs ih =>
    simp only [List.map_cons, List.zipWith_cons_cons, List.length_cons, List.replicate_succ]
    rw [land_wordNot x (h x (by simp)), ih (fun w hw => h w (by simp [hw]))]

theorem zip_or_wordNot (l : List Nat) (h : ∀ w ∈ l, w < wordModulus) :
    List.zipWith (· ||| ·) l (l.map wordNot) = List.replicate l.length (wordModulus - 1) := by
  induction l with
  | nil => rfl
  | cons x xs ih =>
    simp only [List.map_cons, List.zipWith_cons_cons, List.length_cons, List.replicate_succ]
    rw [lor_wordNot x (h x (by simp)), ih (fun w hw => h w (by simp [hw]))]

end Boolbits

namespace Boolbits

/- Supporting lemmas for the hex codec. -/

/-- The character class of the round-trip claim: lowercase hex digits 0
    to 9 and a to f, stated on the code point. -/
def isLowerHexChar (c : Char) : Prop :=
  (48 ≤ c.toNat ∧ c.toNat ≤ 57) ∨ (97 ≤ c.toNat ∧ c.toNat ≤ 102)

instance (c : Char) : Decidable (isLowerHexChar c) := by
  unfold isLowerHexChar
  infer_instance

theorem char_toNat_ofNat_valid (n : Nat) (h : n < 55296) : (Char.ofNat n).toNat = n := by
  have hv : n.isValidChar := Or.inl h
  simp [Char.ofNat, hv, Char.toNat, Char.ofNatAux]
  rfl

theorem hexDigit_roundtrip (c : Char) (h : isLowerHexChar c) :
    ∃ v, hexDigitValue c = some v ∧ v < 16 ∧ hexEncodeChar v = c := by
  rcases h with ⟨h1, h2⟩ | ⟨h1, h2⟩
  · refine ⟨c.toNat - 48, ?_, by omega, ?_⟩
    · rw [hexDigitValue, if_pos ⟨h1, h2⟩]
    · rw [hexEncodeChar, if_pos (by omega),
        show 48 + (c.toNat - 48) = c.toNat from by omega]
      exact Char.ofNat_toNat c
  · refine ⟨c.toNat - 87, ?_, by omega, ?_⟩
    · rw [hexDigitValue, if_neg (by omega), if_pos ⟨h1, h2⟩]
    · rw [hexEncodeChar, if_neg (by omega),
        show 87 + (c.toNat - 87) = c.toNat from by omega]
      exact Char.ofNat_toNat c

theorem hexEncodeChar_lower (v : Nat) (h : v < 16) : isLowerHexChar (hexEncodeChar v) := by
  rw [hexEncodeChar]
  by_cases hv : v < 10
  · rw [if_pos hv]
    exact Or.inl (by rw [char_toNat_ofNat_valid _ (by omega)]; omega)
  · rw [if_neg hv]
    exact Or.inr (by rw [char_toNat_ofNat_valid _ (by omega)]; omega)

theorem hexDecode_encode : ∀ s : List Char, (∀ c ∈ s, isLowerHexChar c) →
    s.length % 2 = 0 →
    ∃ bs, hexDecode s = some bs ∧ bs.length = s.length / 2 ∧
      (∀ b ∈ bs, b < 256) ∧ hexEncode bs = s
  | [] => fun _ _ => ⟨[], rfl, rfl, by simp, rfl⟩
  | [_] => fun _ h => by simp at h
  | c1 :: c2 :: rest => fun hmem hlen => by
    obtain ⟨v1, hd1, hv1, he1⟩ := hexDigit_roundtrip c1 (hmem c1 (by simp))
    obtain ⟨v2, hd2, hv2, he2⟩ := hexDigit_roundtrip c2 (hmem c2 (by simp))
    obtain ⟨bs, hdec, hblen, hbmem, henc⟩ := hexDecode_encode rest
      (fun c hc => hmem c (by simp [hc]))
      (by simp only [List.length_cons] at hlen ⊢; omega)
    refine ⟨(v1 * 16 + v2) :: bs, ?_, ?_, ?_, ?_⟩
    · simp only [hexDecode, hd1, hd2, hdec]
    · simp only [List.length_cons, hblen]
      omega
    · intro b hb
      rcases List.mem_cons.mp hb with h | h
      · subst h
        omega
      · exact hbmem b h
    · rw [hexEncode, hexEncodeByte,
        show (v1 * 16 + v2) / 16 = v1 from by omega,
        show (v1 * 16 + v2) % 16 = v2 from by omega, he1, he2, henc]
      rfl

theorem wordOfBytes8_eq (b0 b1 b2 b3 b4 b5 b6 b7 : Nat)
    (h0 : b0 < 256) (h1 : b1 < 256) (h2 : b2 < 256) (h3 : b3 < 256)
    (h4 : b4 < 256) (h5 : b5 < 256) (h6 : b6 < 256) (h7 : b7 < 256) :
    wordOfBytes8 b0 b1 b2 b3 b4 b5 b6 b7
      = b0 * 2 ^ 56 + b1 * 2 ^ 48 + b2 * 2 ^ 40 + b3 * 2 ^ 32
        + b4 * 2 ^ 24 + b5 * 2 ^ 16 + b6 * 2 ^ 8 + b7 := by
  rw [wordOfBytes8]
  simp only [Nat.shiftLeft_eq]
  rw [show b0 * 2 ^ 56 = 2 ^ 56 * b0 from by ring,
    lor_two_pow_mul_add 56 b0 (b1 * 2 ^ 48) (by omega)]
  rw [show 2 ^ 56 * b0 + b1 * 2 ^ 48 = 2 ^ 48 * (b0 * 2 ^ 8 + b1) from by ring,
    lor_two_pow_mul_add 48 _ (b2 * 2 ^ 40) (by omega)]
  rw [show 2 ^ 48 * (b0 * 2 ^ 8 + b1) + b2 * 2 ^ 40
      = 2 ^ 40 * (b0 * 2 ^ 16 + b1 * 2 ^ 8 + b2) from by ring,
    lor_two_pow_mul_add 40 _ (b3 * 2 ^ 32) (by omega)]
  rw [show 2 ^ 40 * (b0 * 2 ^ 16 + b1 * 2 ^ 8 + b2) + b3 * 2 ^ 32
      = 2 ^ 32 * (b0 * 2 ^ 24 + b1 * 2 ^ 16 + b2 * 2 ^ 8 + b3) from by ring,
    lor_two_pow_mul_add 32 _ (b4 * 2 ^ 24) (by omega)]
  rw [show 2 ^ 32 * (b0 * 2 ^ 24 + b1 * 2 ^ 16 + b2 * 2 ^ 8 + b3) + b4 * 2 ^ 24
      = 2 ^ 24 * (b0 * 2 ^ 32 + b1 * 2 ^ 24 + b2 * 2 ^ 16 + b3 * 2 ^ 8 + b4) from by ring,
    lor_two_pow_mul_add 24 _ (b5 * 2 ^ 16) (by omega)]
  rw [show 2 ^ 24 * (b0 * 2 ^ 32 + b1 * 2 ^ 24 + b2 * 2 ^ 16 + b3 * 2 ^ 8 + b4) + b5 * 2 ^ 16
      = 2 ^ 16 * (b0 * 2 ^ 40 + b1 * 2 ^ 32 + b2 * 2 ^ 24 + b3 * 2 ^ 16 + b4 * 2 ^ 8 + b5)
      from by ring,
    lor_two_pow_mul_add 16 _ (b6 * 2 ^ 8) (by omega)]
  rw [show 2 ^ 16 * (b0 * 2 ^ 40 + b1 * 2 ^ 32 + b2 * 2 ^ 24 + b3 * 2 ^ 16 + b4 * 2 ^ 8 + b5)
      + b6 * 2 ^ 8
      = 2 ^ 8 * (b0 * 2 ^ 48 + b1 * 2 ^ 40 + b2 * 2 ^ 32 + b3 * 2 ^ 24 + b4 * 2 ^ 16
        + b5 * 2 ^ 8 + b6) from by ring,
    lor_two_pow_mul_add 8 _ b7 (by omega)]

theorem wordBytes_wordOfBytes8 (b0 b1 b2 b3 b4 b5 b6 b7 : Nat)
    (h0 : b0 < 256) (h1 : b1 < 256) (h2 : b2 < 256) (h3 : b3 < 256)
    (h4 : b4 < 256) (h5 : b5 < 256) (h6 : b6 < 256) (h7 : b7 < 256) :
    wordBytes (wordOfBytes8 b0 b1 b2 b3 b4 b5 b6 b7) = [b0, b1, b2, b3, b4, b5, b6, b7] := by
  rw [wordOfBytes8_eq b0 b1 b2 b3 b4 b5 b6 b7 h0 h1 h2 h3 h4 h5 h6 h7, wordBytes]
  simp only [Nat.shiftRight_eq_div_pow, List.cons.injEq, and_true]
  refine ⟨by omega, by omega, by omega, by omega, by omega, by omega, by omega, by omega⟩

theorem wordOfBytes8_lt (b0 b1 b2 b3 b4 b5 b6 b7 : Nat)
    (h0 : b0 < 256) (h1 : b1 < 256) (h2 : b2 < 256) (h3 : b3 < 256)
    (h4 : b4 < 256) (h5 : b5 < 256) (h6 : b6 < 256) (h7 : b7 < 256) :
    wordOfBytes8 b0 b1 b2 b3 b4 b5 b6 b7 < wordModulus := by
  rw [wordOfBytes8_eq b0 b1 b2 b3 b4 b5 b6 b7 h0 h1 h2 h3 h4 h5 h6 h7, wordModulus]
  omega

theorem wordsToBytes_bytesToWords : ∀ bs : List Nat, (∀ b ∈ bs, b < 256) →
    bs.length % 8 = 0 →
    wordsToBytes (bytesToWords bs) = bs ∧ (bytesToWords bs).length = bs.length / 8 ∧
      (∀ w ∈ bytesToWords bs, w < wordModulus)
  | [] => fun _ _ => ⟨rfl, rfl, by simp [bytesToWords]⟩
  | [_] => fun _ h => by simp at h
  | [_, _] => fun _ h => by simp at h
  | [_, _, _] => fun _ h => by simp at h
  | [_, _, _, _] => fun _ h => by simp at h
  | [_, _, _, _, _] => fun _ h => by simp at h
  | [_, _, _, _, _, _] => fun _ h => by simp at h
  | [_, _, _, _, _, _, _] => fun _ h => by simp at h
  | b0 :: b1 :: b2 :: b3 :: b4 :: b5 :: b6 :: b7 :: rest => fun hmem hlen => by
    have hsub : ∀ b ∈ rest, b < 256 := fun b hb => hmem b (by simp [hb])
    have hl : rest.length % 8 = 0 := by
      simp only [List.length_cons] at hlen
      omega
    obtain ⟨hrt, hln, hwlt⟩ := wordsToBytes_bytesToWords rest hsub hl
    have e0 := hmem b0 (by simp)
    have e1 := hmem b1 (by simp)
    have e2 := hmem b2 (by simp)
    have e3 := hmem b3 (by simp)
    have e4 := hmem b4 (by simp)
    have e5 := hmem b5 (by simp)
    have e6 := hmem b6 (by simp)
    have e7 := hmem b7 (by simp)
    refine ⟨?_, ?_, ?_⟩
    · rw [bytesToWords, wordsToBytes,
        wordBytes_wordOfBytes8 b0 b1 b2 b3 b4 b5 b6 b7 e0 e1 e2 e3 e4 e5 e6 e7, hrt]
      rfl
    · rw [bytesToWords]
      simp only [List.length_cons, hln]
      omega
    · intro w hw
      rw [bytesToWords] at hw
      rcases List.mem_cons.mp hw with h | h
      · subst h
        exact wordOfBytes8_lt b0 b1 b2 b3 b4 b5 b6 b7 e0 e1 e2 e3 e4 e5 e6 e7
      · exact hwlt w h

theorem hexEncode_length : ∀ bs : List Nat, (hexEncode bs).length = 2 * bs.length
  | [] => rfl
  | b :: rest => by
    rw [hexEncode, List.length_append, hexEncode_length rest]
    simp [hexEncodeByte]
    omega

theorem wordsToBytes_length : ∀ l : List Nat, (wordsToBytes l).length = 8 * l.length
  | [] => rfl
  | w :: rest => by
    rw [wordsToBytes, List.length_append, wordsToBytes_length rest]
    simp [wordBytes]
    omega

theorem wordsToBytes_mem_lt : ∀ (l : List Nat) (b : Nat), b ∈ wordsToBytes l → b < 256
  | [], b => by simp [wordsToBytes]
  | w :: rest, b => fun hb => by
    rw [wordsToBytes] at hb
    rcases List.mem_append.mp hb with h | h
    · rw [wordBytes] at h
      simp only [List.mem_cons, List.not_mem_nil, or_false] at h
      rcases h with h | h | h | h | h | h | h | h <;> subst h <;> exact Nat.mod_lt _ (by omega)
    · exact wordsToBytes_mem_lt rest b h

theorem hexEncode_mem_lower : ∀ (bs : List Nat), (∀ b ∈ bs, b < 256) →
    ∀ c ∈ hexEncode bs, isLowerHexChar c
  | [], _ => by simp [hexEncode]
  | b :: rest, hmem => fun c hc => by
    rw [hexEncode] at hc
    rcases List.mem_append.mp hc with h | h
    · have hb := hmem b (by simp)
      rw [hexEncodeByte] at h
      simp only [List.mem_cons, List.not_mem_nil, or_false] at h
      rcases h with h | h <;> subst h
      · exact hexEncodeChar_lower _ (by omega)
      · exact hexEncodeChar_lower _ (by omega)
    · exact hexEncode_mem_lower rest (fun b hb => hmem b (by simp [hb])) c h

end Boolbits

namespace Bitmapper

open Boolbits

/- Supporting lemmas for GenerateBitMaps. -/

theorem getD_replicate_zero (n k : Nat) : (List.replicate n (0 : Nat)).getD k 0 = 0 := by
  by_cases hk : k < n
  · rw [List.getD_eq_getElem _ _ (by simpa using hk)]
    simp
  · exact List.getD_eq_default _ _ (by simp; omega)

theorem sum_map_popcount_replicate_zero (n : Nat) :
    ((List.replicate n (0 : Nat)).map popcount).sum = 0 := by
  rw [List.map_replicate, popcount_zero, List.sum_replicate, smul_eq_mul, Nat.mul_zero]

theorem sum_map_popcount_replicate_set : ∀ (n j x : Nat), j < n →
    (((List.replicate n (0 : Nat)).set j x).map popcount).sum = popcount x := by
  intro n
  induction n with
  | zero => intro j x h; omega
  | succ n ih =>
    intro j x h
    cases j with
    | zero =>
      simp only [List.replicate_succ, List.set_cons_zero, List.map_cons, List.sum_cons]
      rw [sum_map_popcount_replicate_zero]
      omega
    | succ j =>
      simp only [List.replicate_succ, List.set_cons_succ, List.map_cons, List.sum_cons,
        popcount_zero]
      rw [ih j x (by omega)]
      omega

/-- Closed form of the assignGo loop, proven equal to it in
    assignGo_eq_expected; used only to state and prove its properties. -/
def assignExpected (bitlen : Nat) : Nat → List String → List (String × BitSet)
  | _, [] => []
  | idx, v :: rest =>
    (v, ⟨(List.replicate (bitlen / 64) 0).set (idx / 64) (1 <<< (idx % 64)), bitlen⟩)
      :: assignExpected bitlen (idx + 1) rest

theorem assignGo_eq_expected (bitlen : Nat) (hpos : 0 < bitlen) (hmod : bitlen % 64 = 0) :
    ∀ (l : List String) (idx : Nat), idx + l.length ≤ bitlen →
    assignGo bitlen idx l = Except.ok (assignExpected bitlen idx l) := by
  intro l
  induction l with
  | nil => intro idx h; rfl
  | cons v rest ih =>
    intro idx h
    have hnew : NewBitSet (bitlen : Int)
        = Except.ok ⟨List.replicate (bitlen / 64) 0, bitlen⟩ := by
      have hc : ¬((bitlen : Int) ≤ 0 ∨ (bitlen : Int).tmod 64 ≠ 0) := by
        push_neg
        refine ⟨by omega, ?_⟩
        have h64 : ((64 : Nat) : Int) = (64 : Int) := rfl
        rw [← h64, ← Int.ofNat_tmod, hmod]
        rfl
      simp only [NewBitSet, if_neg hc, Int.toNat_ofNat]
    have hidx : idx < bitlen := by
      have := h
      simp only [List.length_cons] at this
      omega
    have hsetc : ¬((idx : Int) < 0 ∨ (idx : Int) ≥ ((bitlen : Nat) : Int)) := by omega
    have hset : BitSet.SetBit ⟨List.replicate (bitlen / 64) 0, bitlen⟩ (idx : Int)
        = (⟨(List.replicate (bitlen / 64) 0).set (idx / 64) (1 <<< (idx % 64)), bitlen⟩,
          none) := by
      simp only [BitSet.SetBit, if_neg hsetc, Int.toNat_ofNat, getD_replicate_zero,
        Nat.zero_or]
    have hrec := ih (idx + 1) (by simp only [List.length_cons] at h; omega)
    simp only [assignGo, hnew, hset, hrec, assignExpected]

theorem assignExpected_length (bitlen : Nat) :
    ∀ (l : List String) (idx : Nat), (assignExpected bitlen idx l).length = l.length := by
  intro l
  induction l with
  | nil => intro idx; rfl
  | cons v rest ih => intro idx; simp [assignExpected, ih]

theorem assignExpected_getElem (bitlen : Nat) :
    ∀ (l : List String) (idx k : Nat), k < l.length →
    (assignExpected bitlen idx l)[k]? = some (l.getD k "",
      ⟨(List.replicate (bitlen / 64) 0).set ((idx + k) / 64) (1 <<< ((idx + k) % 64)),
        bitlen⟩) := by
  intro l
  induction l with
  | nil => intro idx k h; simp at h
  | cons v rest ih =>
    intro idx k h
    cases k with
    | zero => simp [assignExpected]
    | succ k =>
      have hk : k < rest.length := by simpa using h
      have heq : idx + (k + 1) = (idx + 1) + k := by omega
      rw [heq]
      simpa [assignExpected] using ih (idx + 1) k hk

theorem oneHot_CountOnes (bitlen k : Nat) (hk : k < bitlen) (hmod : bitlen % 64 = 0) :
    (⟨(List.replicate (bitlen / 64) 0).set (k / 64) (1 <<< (k % 64)), bitlen⟩
      : BitSet).CountOnes = 1 := by
  have hzw : k / 64 < bitlen / 64 := by omega
  rw [BitSet.CountOnes]
  rw [show (⟨(List.replicate (bitlen / 64) 0).set (k / 64) (1 <<< (k % 64)), bitlen⟩
    : BitSet).Words = (List.replicate (bitlen / 64) 0).set (k / 64) (1 <<< (k % 64)) from rfl]
  rw [sum_map_popcount_replicate_set _ _ _ hzw, Nat.one_shiftLeft, popcount_two_pow]

theorem oneHot_TestBit (bitlen k : Nat) (hk : k < bitlen) (hmod : bitlen % 64 = 0) :
    (⟨(List.replicate (bitlen / 64) 0).set (k / 64) (1 <<< (k % 64)), bitlen⟩
      : BitSet).TestBit (k : Int) = Except.ok true := by
  have hzw : k / 64 < bitlen / 64 := by omega
  have hc : ¬((k : Int) < 0 ∨ (k : Int) ≥ ((bitlen : Nat) : Int)) := by omega
  simp only [BitSet.TestBit, if_neg hc, Int.toNat_ofNat, testBit_formula]
  rw [Boolbits.getD_set_self _ _ _ (by simpa using hzw), Nat.one_shiftLeft,
    Nat.testBit_two_pow_self]

/- Supporting lemmas for dedup. -/

theorem dedup_foldl_nodup : ∀ (xs acc : List String), acc.Nodup →
    (xs.foldl (fun unique v => if v ∈ unique then unique else unique ++ [v]) acc).Nodup := by
  intro xs
  induction xs with
  | nil => intro acc h; exact h
  | cons x rest ih =>
    intro acc h
    rw [List.foldl_cons]
    by_cases hx : x ∈ acc
    · rw [if_pos hx]
      exact ih acc h
    · rw [if_neg hx]
      refine ih _ ?_
      rw [List.nodup_append]
      refine ⟨h, List.nodup_singleton x, ?_⟩
      intro a ha hax
      simp only [List.mem_singleton] at hax
      subst hax
      exact hx ha

theorem dedup_foldl_mem : ∀ (xs acc : List String) (s : String),
    s ∈ xs.foldl (fun unique v => if v ∈ unique then unique else unique ++ [v]) acc
      ↔ s ∈ acc ∨ s ∈ xs := by
  intro xs
  induction xs with
  | nil => intro acc s; simp
  | cons x rest ih =>
    intro acc s
    rw [List.foldl_cons]
    by_cases hx : x ∈ acc
    · rw [if_pos hx, ih]
      constructor
      · rintro (h | h)
        · exact Or.inl h
        · exact Or.inr (List.mem_cons_of_mem x h)
      · rintro (h | h)
        · exact Or.inl h
        · rcases List.mem_cons.mp h with h | h
          · subst h; exact Or.inl hx
          · exact Or.inr h
    · rw [if_neg hx, ih]
      constructor
      · rintro (h | h)
        · rcases List.mem_append.mp h with h | h
          · exact Or.inl h
          · simp only [List.mem_singleton] at h
            subst h
            exact Or.inr (List.mem_cons_self s rest)
        · exact Or.inr (List.mem_cons_of_mem x h)
      · rintro (h | h)
        · exact Or.inl (List.mem_append.mpr (Or.inl h))
        · rcases List.mem_cons.mp h with h | h
          · subst h
            exact Or.inl (List.mem_append.mpr (Or.inr (List.mem_singleton_self s)))
          · exact Or.inr h

theorem dedup_nodup (xs : List String) : (dedup xs).Nodup :=
  dedup_foldl_nodup xs [] List.nodup_nil

theorem dedup_mem (xs : List String) (s : String) : s ∈ dedup xs ↔ s ∈ xs := by
  rw [dedup, dedup_foldl_mem]
  simp

theorem computeBitLength_spec (c : Nat) :
    computeBitLength c = (if c = 0 then 64 else 64 * ((c + 63) / 64)) := by
  rw [computeBitLength]
  split_ifs with h1 h2 <;> omega

theorem le_computeBitLength (c : Nat) : c ≤ computeBitLength c := by
  rw [computeBitLength]
  split_ifs with h1 h2 <;> omega

theorem computeBitLength_pos (c : Nat) : 0 < computeBitLength c := by
  rw [computeBitLength]
  split_ifs with h1 h2 <;> omega

theorem computeBitLength_mod (c : Nat) : computeBitLength c % 64 = 0 := by
  rw [computeBitLength]
  split_ifs with h1 h2 <;> omega

/-- The property claimed of each mapping GenerateBitMaps returns for one
    input sequence: as many entries as distinct labels, dedup keeps the
    first occurrence of every input label, and the entry at dedup rank k
    pairs the k-th distinct label with a BitSet of the computed capacity
    holding exactly one set bit, at index k. -/
def OneHotMapSpec (xs : List String) (m : List (String × BitSet)) : Prop :=
  m.length = (dedup xs).length ∧ (dedup xs).Nodup ∧ (∀ s, s ∈ dedup xs ↔ s ∈ xs) ∧
  ∀ k, k < (dedup xs).length → ∃ bs, m[k]? = some ((dedup xs).getD k "", bs) ∧
    bs.NumBits = computeBitLength (dedup xs).length ∧ bs.CountOnes = 1 ∧
    bs.TestBit (k : Int) = Except.ok true

theorem assign_spec (xs : List String) : ∃ m, assign (dedup xs) = Except.ok m ∧
    OneHotMapSpec xs m := by
  have hpos := computeBitLength_pos (dedup xs).length
  have hmod := computeBitLength_mod (dedup xs).length
  have hle := le_computeBitLength (dedup xs).length
  refine ⟨assignExpected (computeBitLength (dedup xs).length) 0 (dedup xs), ?_, ?_, ?_, ?_, ?_⟩
  · rw [assign]
    exact assignGo_eq_expected _ hpos hmod (dedup xs) 0 (by omega)
  · exact assignExpected_length _ (dedup xs) 0
  · exact dedup_nodup xs
  · exact dedup_mem xs
  · intro k hk
    refine ⟨⟨(List.replicate (computeBitLength (dedup xs).length / 64) 0).set (k / 64)
      (1 <<< (k % 64)), computeBitLength (dedup xs).length⟩, ?_, rfl, ?_, ?_⟩
    · have h := assignExpected_getElem (computeBitLength (dedup xs).length) (dedup xs) 0 k hk
      simpa using h
    · exact oneHot_CountOnes _ k (by omega) hmod
    · exact oneHot_TestBit _ k (by omega) hmod

end Bitmapper

section Claims

open Boolbits Bitmapper

/-- Claim C6: NewBitSet succeeds and returns an all-zero vector (IsZero
    true and CountOnes 0) for every bitLength that is a positive multiple
    of 64, and fails with the invalid-length error for every other
    bitLength (non-positive or not a multiple of 64). -/
theorem C6_constructor_raises_iff (n : Int) :
    (0 < n ∧ n.tmod 64 = 0 →
      ∃ b, NewBitSet n = Except.ok b ∧ b.IsZero = true ∧ b.CountOnes = 0) ∧
    (¬(0 < n ∧ n.tmod 64 = 0) →
      NewBitSet n = Except.error ("error: numBits must be a positive multiple of 64 (got "
        ++ toString n ++ ")")) := by
  constructor
  · rintro ⟨h1, h2⟩
    have hc : ¬(n ≤ 0 ∨ n.tmod 64 ≠ 0) := by
      push_neg
      exact ⟨by omega, h2⟩
    refine ⟨⟨List.replicate (n.toNat / 64) 0, n.toNat⟩, by simp only [NewBitSet, if_neg hc], ?_, ?_⟩
    · simp [BitSet.IsZero, List.all_eq_true, List.eq_of_mem_replicate]
    · simp [BitSet.CountOnes, List.map_replicate, popcount_zero, List.sum_replicate]
  · intro h
    have hc : n ≤ 0 ∨ n.tmod 64 ≠ 0 := by
      by_contra hcon
      push_neg at hcon
      exact h ⟨by omega, hcon.2⟩
    simp only [NewBitSet, if_pos hc]

/-- Witness for C6 at the valid input 128 and the invalid input 100. -/
theorem C6_witness :
    (∃ b, NewBitSet 128 = Except.ok b ∧ b.IsZero = true ∧ b.CountOnes = 0) ∧
    NewBitSet 100 = Except.error ("error: numBits must be a positive multiple of 64 (got "
      ++ toString (100 : Int) ++ ")") :=
  ⟨(C6_constructor_raises_iff 128).1 (by decide),
   (C6_constructor_raises_iff 100).2 (by decide)⟩

/-- Claim C7: SetBit, ClearBit and TestBit fail with the index-out-of-range
    error exactly when i is below 0 or at least NumBits, and a failed
    SetBit or ClearBit leaves the vector completely unchanged. -/
theorem C7_bit_index_raises_iff (b : BitSet) (i : Int) :
    ((i < 0 ∨ (b.NumBits : Int) ≤ i) →
      b.SetBit i = (b, some ("SetBit: index " ++ toString i ++ " out of valid range [0, "
        ++ toString b.NumBits ++ ")")) ∧
      b.ClearBit i = (b, some ("ClearBit: index " ++ toString i ++ " out of valid range [0, "
        ++ toString b.NumBits ++ ")")) ∧
      b.TestBit i = Except.error ("TestBit: index " ++ toString i ++ " out of valid range [0, "
        ++ toString b.NumBits ++ ")")) ∧
    (0 ≤ i → i < (b.NumBits : Int) →
      (b.SetBit i).2 = none ∧ (b.ClearBit i).2 = none ∧ ∃ v, b.TestBit i = Except.ok v) := by
  constructor
  · intro h
    have hc : i < 0 ∨ i ≥ (b.NumBits : Int) := h
    refine ⟨?_, ?_, ?_⟩ <;> simp only [BitSet.SetBit, BitSet.ClearBit, BitSet.TestBit, if_pos hc]
  · intro h1 h2
    have hc : ¬(i < 0 ∨ i ≥ (b.NumBits : Int)) := by omega
    refine ⟨?_, ?_, ?_⟩ <;> simp only [BitSet.SetBit, BitSet.ClearBit, BitSet.TestBit, if_neg hc]
    exact ⟨_, rfl⟩

/-- Witness for C7 on a 64-bit vector: index 64 fails on all three
    operations leaving the vector unchanged, index 3 succeeds. -/
theorem C7_witness :
    (BitSet.SetBit ⟨[0], 64⟩ 64 = (⟨[0], 64⟩, some ("SetBit: index " ++ toString (64 : Int)
      ++ " out of valid range [0, " ++ toString (64 : Nat) ++ ")"))) ∧
    ((BitSet.SetBit ⟨[0], 64⟩ 3).2 = none) ∧
    ((BitSet.ClearBit ⟨[0], 64⟩ 3).2 = none) :=
  ⟨((C7_bit_index_raises_iff ⟨[0], 64⟩ 64).1 (by decide)).1,
   ((C7_bit_index_raises_iff ⟨[0], 64⟩ 3).2 (by decide) (by decide)).1,
   ((C7_bit_index_raises_iff ⟨[0], 64⟩ 3).2 (by decide) (by decide)).2.1⟩

/-- Claim C2: bit index i addresses word i / 64 at intra-word position
    i % 64 with bit 0 the least significant bit of word 0 (stated through
    Nat.testBit, whose index 0 is the least significant bit), while the
    hex codec emits word 0 first, most significant byte first: on a fresh
    128-bit vector, SetBit 0 yields the hex string
    00000000000000010000000000000000, the set bit at the low end of the
    first 16-character group. -/
theorem C2_indexing_codec_pairing :
    (∀ (b : BitSet) (i : Int), 0 ≤ i → i < (b.NumBits : Int) →
      (b.SetBit i).1.Words
        = b.Words.set (i.toNat / 64) ((b.Words.getD (i.toNat / 64) 0) ||| 2 ^ (i.toNat % 64)) ∧
      b.TestBit i = Except.ok (Nat.testBit (b.Words.getD (i.toNat / 64) 0) (i.toNat % 64))) ∧
    (∃ b0, NewBitSet 128 = Except.ok b0 ∧
      (b0.SetBit 0).1.ToHex = ("00000000000000010000000000000000".toList)) := by
  constructor
  · intro b i h1 h2
    have hc : ¬(i < 0 ∨ i ≥ (b.NumBits : Int)) := by omega
    constructor
    · simp only [BitSet.SetBit, if_neg hc, Nat.one_shiftLeft]
    · simp only [BitSet.TestBit, if_neg hc]
      exact congrArg Except.ok (testBit_formula _ _)
  · exact ⟨⟨List.replicate 2 0, 128⟩, rfl, by decide⟩

/-- Witness for C2 at a concrete 128-bit vector and index 100. -/
theorem C2_witness :
    ((⟨[0, 0], 128⟩ : BitSet).SetBit 100).1.Words
      = (⟨[0, 0], 128⟩ : BitSet).Words.set ((100 : Int).toNat / 64)
          (((⟨[0, 0], 128⟩ : BitSet).Words.getD ((100 : Int).toNat / 64) 0)
            ||| 2 ^ ((100 : Int).toNat % 64)) ∧
    (⟨[0, 0], 128⟩ : BitSet).TestBit 100
      = Except.ok (Nat.testBit ((⟨[0, 0], 128⟩ : BitSet).Words.getD ((100 : Int).toNat / 64) 0)
          ((100 : Int).toNat % 64)) :=
  C2_indexing_codec_pairing.1 ⟨[0, 0], 128⟩ 100 (by decide) (by decide)

/-- Claim C8: for every vector and valid index i, after SetBit i TestBit i
    returns true, after ClearBit i TestBit i returns false, every bit at a
    valid index j different from i keeps its previous value, and the bit
    length is unchanged. -/
theorem C8_mutation_postcondition_frame (b : BitSet) (i : Int) (hw : b.WF)
    (h0 : 0 ≤ i) (hi : i < (b.NumBits : Int)) :
    (b.SetBit i).1.TestBit i = Except.ok true ∧
    (b.ClearBit i).1.TestBit i = Except.ok false ∧
    (b.SetBit i).1.NumBits = b.NumBits ∧
    (b.ClearBit i).1.NumBits = b.NumBits ∧
    (∀ j : Int, 0 ≤ j → j < (b.NumBits : Int) → j ≠ i →
      (b.SetBit i).1.TestBit j = b.TestBit j ∧
      (b.ClearBit i).1.TestBit j = b.TestBit j) := by
  obtain ⟨hlen, hmod, hpos, hbound⟩ := hw
  have hni : i.toNat < b.NumBits := by omega
  have hwi : i.toNat / 64 < b.Words.length := by rw [hlen]; omega
  have hset : (b.SetBit i).1 = (⟨b.Words.set (i.toNat / 64)
      ((b.Words.getD (i.toNat / 64) 0) ||| (1 <<< (i.toNat % 64))), b.NumBits⟩ : BitSet) := by
    rw [SetBit_ok_shape b i h0 hi]
  have hclear : (b.ClearBit i).1 = (⟨b.Words.set (i.toNat / 64)
      ((b.Words.getD (i.toNat / 64) 0) &&& ((1 <<< (i.toNat % 64)) ^^^ (wordModulus - 1))),
      b.NumBits⟩ : BitSet) := by
    rw [ClearBit_ok_shape b i h0 hi]
  rw [hset, hclear]
  have hci : ¬(i < 0 ∨ i ≥ ((b.NumBits : Nat) : Int)) := by omega
  refine ⟨?_, ?_, rfl, rfl, ?_⟩
  · simp only [BitSet.TestBit, if_neg hci, testBit_formula]
    rw [getD_set_self _ _ _ hwi, testBit_or_shift]
    simp
  · simp only [BitSet.TestBit, if_neg hci, testBit_formula]
    rw [getD_set_self _ _ _ hwi, testBit_and_mask _ _ _ (by omega)]
    simp
  · intro j hj0 hjlt hji
    have hne : j.toNat ≠ i.toNat := by omega
    have hcj : ¬(j < 0 ∨ j ≥ ((b.NumBits : Nat) : Int)) := by omega
    simp only [BitSet.TestBit, if_neg hcj, testBit_formula]
    by_cases hw64 : j.toNat / 64 = i.toNat / 64
    · have hbne : i.toNat % 64 ≠ j.toNat % 64 := by omega
      rw [hw64, getD_set_self _ _ _ hwi, getD_set_self _ _ _ hwi]
      constructor
      · rw [testBit_or_shift]
        simp [hbne]
      · rw [testBit_and_mask _ _ _ (by omega)]
        simp [hbne]
    · rw [getD_set_ne _ _ _ _ (by omega), getD_set_ne _ _ _ _ (by omega)]
      exact ⟨rfl, rfl⟩

/-- Claim C4: for every pair of well-formed BitSets of equal bit length,
    the AND and OR results exist and CountOnes of the AND plus CountOnes
    of the OR equals the sum of the two CountOnes, while the XOR count is
    the OR count minus the AND count. -/
theorem C4_inclusion_exclusion (a b : BitSet) (hwa : a.WF) (hwb : b.WF)
    (hlen : a.NumBits = b.NumBits) :
    ∃ cAnd cOr cXor, a.And b = Except.ok cAnd ∧ a.Or b = Except.ok cOr ∧
      a.Xor b = Except.ok cXor ∧
      cAnd.CountOnes + cOr.CountOnes = a.CountOnes + b.CountOnes ∧
      cXor.CountOnes = cOr.CountOnes - cAnd.CountOnes := by
  have hsz : ensureSameSize a b = none := by simp [ensureSameSize, hlen]
  have hl : a.Words.length = b.Words.length := by rw [hwa.1, hwb.1, hlen]
  refine ⟨⟨List.zipWith (· &&& ·) a.Words b.Words, a.NumBits⟩,
    ⟨List.zipWith (· ||| ·) a.Words b.Words, a.NumBits⟩,
    ⟨List.zipWith (· ^^^ ·) a.Words b.Words, a.NumBits⟩, ?_, ?_, ?_, ?_, ?_⟩
  · simp [BitSet.And, hsz]
  · simp [BitSet.Or, hsz]
  · simp [BitSet.Xor, hsz]
  · exact sum_pc_zip_and_or a.Words b.Words hl
  · have h1 := sum_pc_zip_xor_and a.Words b.Words hl
    simp only [BitSet.CountOnes]
    omega

/-- Witness for C4 on two concrete 128-bit vectors. -/
theorem C4_witness :
    ∃ cAnd cOr cXor, (⟨[3, 5], 128⟩ : BitSet).And ⟨[6, 12], 128⟩ = Except.ok cAnd ∧
      (⟨[3, 5], 128⟩ : BitSet).Or ⟨[6, 12], 128⟩ = Except.ok cOr ∧
      (⟨[3, 5], 128⟩ : BitSet).Xor ⟨[6, 12], 128⟩ = Except.ok cXor ∧
      cAnd.CountOnes + cOr.CountOnes
        = (⟨[3, 5], 128⟩ : BitSet).CountOnes + (⟨[6, 12], 128⟩ : BitSet).CountOnes ∧
      cXor.CountOnes = cOr.CountOnes - cAnd.CountOnes :=
  C4_inclusion_exclusion ⟨[3, 5], 128⟩ ⟨[6, 12], 128⟩ (by decide) (by decide) rfl

/-- Claim C5: for every well-formed BitSet, double complement is Equals to
    the original, AND with the complement is zero, and OR with the
    complement has CountOnes equal to the bit length. -/
theorem C5_complement_laws (a : BitSet) (hw : a.WF) :
    a.Not.Not.Equals a = true ∧
    (∃ c, a.And a.Not = Except.ok c ∧ c.IsZero = true) ∧
    (∃ d, a.Or a.Not = Except.ok d ∧ d.CountOnes = a.NumBits) := by
  obtain ⟨hlen, hmod, hpos, hbound⟩ := hw
  have hsz : ensureSameSize a ⟨a.Words.map wordNot, a.NumBits⟩ = none := by
    simp [ensureSameSize]
  refine ⟨?_, ⟨⟨List.zipWith (· &&& ·) a.Words (a.Words.map wordNot), a.NumBits⟩, ?_, ?_⟩,
    ⟨⟨List.zipWith (· ||| ·) a.Words (a.Words.map wordNot), a.NumBits⟩, ?_, ?_⟩⟩
  · simp [BitSet.Equals, BitSet.Not, Function.comp_def, wordNot_wordNot]
  · simp [BitSet.And, BitSet.Not, hsz]
  · rw [BitSet.IsZero]
    rw [show (⟨List.zipWith (· &&& ·) a.Words (a.Words.map wordNot), a.NumBits⟩ : BitSet).Words
      = List.zipWith (· &&& ·) a.Words (a.Words.map wordNot) from rfl]
    rw [zip_and_wordNot a.Words hbound]
    simp [List.all_eq_true, List.eq_of_mem_replicate]
  · simp [BitSet.Or, BitSet.Not, hsz]
  · rw [BitSet.CountOnes]
    rw [show (⟨List.zipWith (· ||| ·) a.Words (a.Words.map wordNot), a.NumBits⟩ : BitSet).Words
      = List.zipWith (· ||| ·) a.Words (a.Words.map wordNot) from rfl]
    rw [zip_or_wordNot a.Words hbound, List.map_replicate]
    have hpc : popcount (wordModulus - 1) = 64 := popcount_two_pow_sub_one 64
    rw [hpc, List.sum_replicate, smul_eq_mul, hlen]
    omega

/-- Witness for C5 on a concrete 128-bit vector. -/
theorem C5_witness :
    (⟨[7, 9], 128⟩ : BitSet).Not.Not.Equals ⟨[7, 9], 128⟩ = true ∧
    (∃ c, (⟨[7, 9], 128⟩ : BitSet).And (⟨[7, 9], 128⟩ : BitSet).Not = Except.ok c ∧
      c.IsZero = true) ∧
    (∃ d, (⟨[7, 9], 128⟩ : BitSet).Or (⟨[7, 9], 128⟩ : BitSet).Not = Except.ok d ∧
      d.CountOnes = (⟨[7, 9], 128⟩ : BitSet).NumBits) :=
  C5_complement_laws ⟨[7, 9], 128⟩ (by decide)

/-- Witness for C8 on a concrete 128-bit vector at index 5 with frame
    index 70. -/
theorem C8_witness :
    ((⟨[0, 0], 128⟩ : BitSet).SetBit 5).1.TestBit 5 = Except.ok true ∧
    ((⟨[0, 0], 128⟩ : BitSet).ClearBit 5).1.TestBit 5 = Except.ok false ∧
    ((⟨[0, 0], 128⟩ : BitSet).SetBit 5).1.TestBit 70 = (⟨[0, 0], 128⟩ : BitSet).TestBit 70 := by
  have h := C8_mutation_postcondition_frame ⟨[0, 0], 128⟩ 5 (by decide) (by decide) (by decide)
  exact ⟨h.1, h.2.1, (h.2.2.2.2 70 (by decide) (by decide) (by decide)).1⟩

/-- Claim C1: for every valid bit length n (a positive multiple of 64)
    and every character list s of exactly n/4 characters from 0 to 9 and
    a to f, NewBitSetFromHex n s succeeds and ToHex of the result is
    exactly s; moreover for every well-formed BitSet, ToHex produces
    exactly NumBits/4 characters, all lowercase hex. -/
theorem C1_hex_roundtrip :
    (∀ (n : Int) (s : List Char), 0 < n → n.tmod 64 = 0 → s.length = n.toNat / 4 →
      (∀ c ∈ s, isLowerHexChar c) →
      ∃ b, NewBitSetFromHex n s = Except.ok b ∧ b.ToHex = s) ∧
    (∀ b : BitSet, b.WF → b.ToHex.length = b.NumBits / 4 ∧
      ∀ c ∈ b.ToHex, isLowerHexChar c) := by
  constructor
  · intro n s hpos hmod hslen hhex
    have hnn : n = ((n.toNat : Nat) : Int) := by omega
    have hmodn : n.toNat % 64 = 0 := by
      have h2 : ((n.toNat : Nat) : Int).tmod 64 = 0 := by rw [← hnn]; exact hmod
      rw [show (64 : Int) = ((64 : Nat) : Int) from rfl, ← Int.ofNat_tmod] at h2
      exact_mod_cast h2
    have hc1 : ¬(n ≤ 0 ∨ n.tmod 64 ≠ 0) := by
      push_neg
      exact ⟨by omega, hmod⟩
    have hc2 : ¬(s.length ≠ n.toNat / 4) := by omega
    obtain ⟨bs, hdec, hblen, hbmem, henc⟩ := hexDecode_encode s hhex (by omega)
    have hc3 : ¬(bs.length ≠ n.toNat / 8) := by omega
    obtain ⟨hrt, hwln, hwlt⟩ := wordsToBytes_bytesToWords bs hbmem (by omega)
    refine ⟨⟨bytesToWords bs, n.toNat⟩, ?_, ?_⟩
    · simp only [NewBitSetFromHex, if_neg hc1, if_neg hc2, hdec, if_neg hc3]
    · rw [BitSet.ToHex,
        show (⟨bytesToWords bs, n.toNat⟩ : BitSet).Words = bytesToWords bs from rfl,
        hrt, henc]
  · intro b hw
    obtain ⟨hlen, hmod, hpos, hbound⟩ := hw
    constructor
    · rw [BitSet.ToHex, hexEncode_length, wordsToBytes_length, hlen]
      omega
    · intro c hc
      exact hexEncode_mem_lower (wordsToBytes b.Words)
        (fun b2 hb2 => wordsToBytes_mem_lt _ b2 hb2) c hc

/-- Witness for C1 at bit length 64 and the spec example string
    0123456789abcdef. -/
theorem C1_witness :
    (∃ b, NewBitSetFromHex 64 ("0123456789abcdef".toList) = Except.ok b ∧
      b.ToHex = "0123456789abcdef".toList) ∧
    ((⟨[1], 64⟩ : BitSet).ToHex.length = 64 / 4 ∧
      ∀ c ∈ (⟨[1], 64⟩ : BitSet).ToHex, isLowerHexChar c) := by
  constructor
  · exact C1_hex_roundtrip.1 64 ("0123456789abcdef".toList) (by decide) (by decide)
      (by decide) (by decide)
  · exact C1_hex_roundtrip.2 ⟨[1], 64⟩ (by decide)

/-- Claim C3: GenerateBitMaps deduplicates each input sequence preserving
    first-occurrence order and maps each distinct label to a BitSet with
    exactly one set bit at the label's 0-based dedup rank, all vectors of
    one sequence sharing bit length computeBitLength of the distinct
    count, which is the smallest multiple of 64 at least that count (64
    for count 0); the example sequence a b c a b yields exactly 3 entries
    with a at bit 0, b at bit 1, c at bit 2, each CountOnes 1 and
    bitLength 64, and empty input yields empty mappings with no error. -/
theorem C3_one_hot_assignment :
    (∀ ds gs ns vs : List String, ∃ m1 m2 m3 m4,
      GenerateBitMaps ds gs ns vs = Except.ok (m1, m2, m3, m4) ∧
      OneHotMapSpec ds m1 ∧ OneHotMapSpec gs m2 ∧
      OneHotMapSpec ns m3 ∧ OneHotMapSpec vs m4) ∧
    (∀ c, computeBitLength c = (if c = 0 then 64 else 64 * ((c + 63) / 64))) ∧
    (∃ m rest2 rest3 rest4, GenerateBitMaps ["a", "b", "c", "a", "b"] [] [] []
        = Except.ok (m, rest2, rest3, rest4) ∧ m.length = 3 ∧
      (∃ bs, m.lookup "a" = some bs ∧ bs.TestBit 0 = Except.ok true ∧
        bs.CountOnes = 1 ∧ bs.NumBits = 64) ∧
      (∃ bs, m.lookup "b" = some bs ∧ bs.TestBit 1 = Except.ok true ∧
        bs.CountOnes = 1 ∧ bs.NumBits = 64) ∧
      (∃ bs, m.lookup "c" = some bs ∧ bs.TestBit 2 = Except.ok true ∧
        bs.CountOnes = 1 ∧ bs.NumBits = 64)) ∧
    GenerateBitMaps [] [] [] [] = Except.ok ([], [], [], []) := by
  refine ⟨?_, computeBitLength_spec, ?_, rfl⟩
  · intro ds gs ns vs
    obtain ⟨m1, h1, s1⟩ := assign_spec ds
    obtain ⟨m2, h2, s2⟩ := assign_spec gs
    obtain ⟨m3, h3, s3⟩ := assign_spec ns
    obtain ⟨m4, h4, s4⟩ := assign_spec vs
    refine ⟨m1, m2, m3, m4, ?_, s1, s2, s3, s4⟩
    simp only [GenerateBitMaps, h1, h2, h3, h4]
  · exact ⟨[("a", ⟨[1], 64⟩), ("b", ⟨[2], 64⟩), ("c", ⟨[4], 64⟩)], [], [], [], rfl, rfl,
      ⟨⟨[1], 64⟩, rfl, rfl, rfl, rfl⟩, ⟨⟨[2], 64⟩, rfl, rfl, rfl, rfl⟩,
      ⟨⟨[4], 64⟩, rfl, rfl, rfl, rfl⟩⟩

/-- Witness for C3 at the concrete input with labels x and y. -/
theorem C3_witness :
    ∃ m1 m2 m3 m4 bs, GenerateBitMaps ["x", "y"] [] [] [] = Except.ok (m1, m2, m3, m4) ∧
      m1[0]? = some ("x", bs) ∧ bs.CountOnes = 1 ∧ bs.TestBit 0 = Except.ok true ∧
      bs.NumBits = 64 := by
  obtain ⟨m1, m2, m3, m4, hg, s1, _, _, _⟩ := C3_one_hot_assignment.1 ["x", "y"] [] [] []
  obtain ⟨hlen, hnd, hmem, hk⟩ := s1
  obtain ⟨bs, hb1, hb2, hb3, hb4⟩ := hk 0 (by rw [hlen] at *; decide)
  exact ⟨m1, m2, m3, m4, bs, hg, hb1, hb3, hb4, hb2⟩

/-- Claim C9: Entry And, Or and Xor fail with the nil-entry error when
    either operand is absent; with both present they check the four field
    bit lengths in order Domain, Group, Name, Value, failing with the
    message naming the offending field before any BitVector operation is
    applied; when all four field lengths match the result is the
    field-wise BitVector combination. -/
theorem C9_entry_binary_ops (e o : Boolbits.Entry) (x : Option Boolbits.Entry) :
    (EntryAnd none x = Except.error "cannot AND nil Entry" ∧
     EntryAnd (some e) none = Except.error "cannot AND nil Entry" ∧
     EntryOr none x = Except.error "cannot OR nil Entry" ∧
     EntryOr (some e) none = Except.error "cannot OR nil Entry" ∧
     EntryXor none x = Except.error "cannot XOR nil Entry" ∧
     EntryXor (some e) none = Except.error "cannot XOR nil Entry") ∧
    (e.Domain.NumBits ≠ o.Domain.NumBits →
      EntryAnd (some e) (some o) = Except.error ("mismatched Domain bit lengths: "
        ++ toString e.Domain.NumBits ++ " vs " ++ toString o.Domain.NumBits) ∧
      EntryOr (some e) (some o) = Except.error ("mismatched Domain bit lengths: "
        ++ toString e.Domain.NumBits ++ " vs " ++ toString o.Domain.NumBits) ∧
      EntryXor (some e) (some o) = Except.error ("mismatched Domain bit lengths: "
        ++ toString e.Domain.NumBits ++ " vs " ++ toString o.Domain.NumBits)) ∧
    (e.Domain.NumBits = o.Domain.NumBits → e.Group.NumBits ≠ o.Group.NumBits →
      EntryAnd (some e) (some o) = Except.error ("mismatched Group bit lengths: "
        ++ toString e.Group.NumBits ++ " vs " ++ toString o.Group.NumBits) ∧
      EntryOr (some e) (some o) = Except.error ("mismatched Group bit lengths: "
        ++ toString e.Group.NumBits ++ " vs " ++ toString o.Group.NumBits) ∧
      EntryXor (some e) (some o) = Except.error ("mismatched Group bit lengths: "
        ++ toString e.Group.NumBits ++ " vs " ++ toString o.Group.NumBits)) ∧
    (e.Domain.NumBits = o.Domain.NumBits → e.Group.NumBits = o.Group.NumBits →
      e.Name.NumBits ≠ o.Name.NumBits →
      EntryAnd (some e) (some o) = Except.error ("mismatched Name bit lengths: "
        ++ toString e.Name.NumBits ++ " vs " ++ toString o.Name.NumBits) ∧
      EntryOr (some e) (some o) = Except.error ("mismatched Name bit lengths: "
        ++ toString e.Name.NumBits ++ " vs " ++ toString o.Name.NumBits) ∧
      EntryXor (some e) (some o) = Except.error ("mismatched Name bit lengths: "
        ++ toString e.Name.NumBits ++ " vs " ++ toString o.Name.NumBits)) ∧
    (e.Domain.NumBits = o.Domain.NumBits → e.Group.NumBits = o.Group.NumBits →
      e.Name.NumBits = o.Name.NumBits → e.Value.NumBits ≠ o.Value.NumBits →
      EntryAnd (some e) (some o) = Except.error ("mismatched Value bit lengths: "
        ++ toString e.Value.NumBits ++ " vs " ++ toString o.Value.NumBits) ∧
      EntryOr (some e) (some o) = Except.error ("mismatched Value bit lengths: "
        ++ toString e.Value.NumBits ++ " vs " ++ toString o.Value.NumBits) ∧
      EntryXor (some e) (some o) = Except.error ("mismatched Value bit lengths: "
        ++ toString e.Value.NumBits ++ " vs " ++ toString o.Value.NumBits)) ∧
    (e.Domain.NumBits = o.Domain.NumBits → e.Group.NumBits = o.Group.NumBits →
      e.Name.NumBits = o.Name.NumBits → e.Value.NumBits = o.Value.NumBits →
      (∃ dr gr nr vr, e.Domain.And o.Domain = Except.ok dr ∧
        e.Group.And o.Group = Except.ok gr ∧ e.Name.And o.Name = Except.ok nr ∧
        e.Value.And o.Value = Except.ok vr ∧
        EntryAnd (some e) (some o) = Except.ok ⟨dr, gr, nr, vr⟩) ∧
      (∃ dr gr nr vr, e.Domain.Or o.Domain = Except.ok dr ∧
        e.Group.Or o.Group = Except.ok gr ∧ e.Name.Or o.Name = Except.ok nr ∧
        e.Value.Or o.Value = Except.ok vr ∧
        EntryOr (some e) (some o) = Except.ok ⟨dr, gr, nr, vr⟩) ∧
      (∃ dr gr nr vr, e.Domain.Xor o.Domain = Except.ok dr ∧
        e.Group.Xor o.Group = Except.ok gr ∧ e.Name.Xor o.Name = Except.ok nr ∧
        e.Value.Xor o.Value = Except.ok vr ∧
        EntryXor (some e) (some o) = Except.ok ⟨dr, gr, nr, vr⟩)) := by
  refine ⟨⟨rfl, rfl, rfl, rfl, rfl, rfl⟩, ?_, ?_, ?_, ?_, ?_⟩
  · intro h1
    exact ⟨by simp [EntryAnd, h1], by simp [EntryOr, h1], by simp [EntryXor, h1]⟩
  · intro h1 h2
    exact ⟨by simp [EntryAnd, h1, h2], by simp [EntryOr, h1, h2], by simp [EntryXor, h1, h2]⟩
  · intro h1 h2 h3
    exact ⟨by simp [EntryAnd, h1, h2, h3], by simp [EntryOr, h1, h2, h3],
      by simp [EntryXor, h1, h2, h3]⟩
  · intro h1 h2 h3 h4
    exact ⟨by simp [EntryAnd, h1, h2, h3, h4], by simp [EntryOr, h1, h2, h3, h4],
      by simp [EntryXor, h1, h2, h3, h4]⟩
  · intro h1 h2 h3 h4
    have hd : ensureSameSize e.Domain o.Domain = none := by simp [ensureSameSize, h1]
    have hg : ensureSameSize e.Group o.Group = none := by simp [ensureSameSize, h2]
    have hn : ensureSameSize e.Name o.Name = none := by simp [ensureSameSize, h3]
    have hv : ensureSameSize e.Value o.Value = none := by simp [ensureSameSize, h4]
    refine ⟨⟨⟨List.zipWith (· &&& ·) e.Domain.Words o.Domain.Words, e.Domain.NumBits⟩,
      ⟨List.zipWith (· &&& ·) e.Group.Words o.Group.Words, e.Group.NumBits⟩,
      ⟨List.zipWith (· &&& ·) e.Name.Words o.Name.Words, e.Name.NumBits⟩,
      ⟨List.zipWith (· &&& ·) e.Value.Words o.Value.Words, e.Value.NumBits⟩,
      ?_, ?_, ?_, ?_, ?_⟩,
      ⟨⟨List.zipWith (· ||| ·) e.Domain.Words o.Domain.Words, e.Domain.NumBits⟩,
      ⟨List.zipWith (· ||| ·) e.Group.Words o.Group.Words, e.Group.NumBits⟩,
      ⟨List.zipWith (· ||| ·) e.Name.Words o.Name.Words, e.Name.NumBits⟩,
      ⟨List.zipWith (· ||| ·) e.Value.Words o.Value.Words, e.Value.NumBits⟩,
      ?_, ?_, ?_, ?_, ?_⟩,
      ⟨⟨List.zipWith (· ^^^ ·) e.Domain.Words o.Domain.Words, e.Domain.NumBits⟩,
      ⟨List.zipWith (· ^^^ ·) e.Group.Words o.Group.Words, e.Group.NumBits⟩,
      ⟨List.zipWith (· ^^^ ·) e.Name.Words o.Name.Words, e.Name.NumBits⟩,
      ⟨List.zipWith (· ^^^ ·) e.Value.Words o.Value.Words, e.Value.NumBits⟩,
      ?_, ?_, ?_, ?_, ?_⟩⟩ <;>
      simp [EntryAnd, EntryOr, EntryXor, BitSet.And, BitSet.Or, BitSet.Xor,
        hd, hg, hn, hv, h1, h2, h3, h4]

/-- Witness for C9 on concrete entries: a Group length mismatch is
    reported naming Group, and a fully matching pair succeeds. -/
theorem C9_witness :
    (EntryAnd (some ⟨⟨[0], 64⟩, ⟨[0], 64⟩, ⟨[0], 64⟩, ⟨[0], 64⟩⟩)
        (some ⟨⟨[0], 64⟩, ⟨[0, 0], 128⟩, ⟨[0], 64⟩, ⟨[0], 64⟩⟩)
      = Except.error ("mismatched Group bit lengths: " ++ toString (64 : Nat)
          ++ " vs " ++ toString (128 : Nat))) ∧
    (∃ dr gr nr vr,
      (⟨[3], 64⟩ : BitSet).And ⟨[5], 64⟩ = Except.ok dr ∧
      (⟨[3], 64⟩ : BitSet).And ⟨[5], 64⟩ = Except.ok gr ∧
      (⟨[3], 64⟩ : BitSet).And ⟨[5], 64⟩ = Except.ok nr ∧
      (⟨[3], 64⟩ : BitSet).And ⟨[5], 64⟩ = Except.ok vr ∧
      EntryAnd (some ⟨⟨[3], 64⟩, ⟨[3], 64⟩, ⟨[3], 64⟩, ⟨[3], 64⟩⟩)
        (some ⟨⟨[5], 64⟩, ⟨[5], 64⟩, ⟨[5], 64⟩, ⟨[5], 64⟩⟩) = Except.ok ⟨dr, gr, nr, vr⟩) := by
  constructor
  · exact ((C9_entry_binary_ops ⟨⟨[0], 64⟩, ⟨[0], 64⟩, ⟨[0], 64⟩, ⟨[0], 64⟩⟩
      ⟨⟨[0], 64⟩, ⟨[0, 0], 128⟩, ⟨[0], 64⟩, ⟨[0], 64⟩⟩ none).2.2.1 rfl (by decide)).1
  · exact (((C9_entry_binary_ops ⟨⟨[3], 64⟩, ⟨[3], 64⟩, ⟨[3], 64⟩, ⟨[3], 64⟩⟩
      ⟨⟨[5], 64⟩, ⟨[5], 64⟩, ⟨[5], 64⟩, ⟨[5], 64⟩⟩ none).2.2.2.2.2 rfl rfl rfl rfl).1)

/-- Claim C10: bitmapper NewEntry fails with a key-not-found error naming
    the category and the key at the first missing lookup (checked in order
    domain, group, name, value), and when all four keys are present it
    returns an Entry whose four fields are exactly the looked-up BitSets. -/
theorem C10_entry_lookup (dk gk nk vk : String)
    (dm gm nm vm : List (String × BitSet)) :
    (dm.lookup dk = none →
      Bitmapper.NewEntry dk gk nk vk dm gm nm vm
        = Except.error ("domain key " ++ squote ++ dk ++ squote ++ " not found")) ∧
    (∀ dbs, dm.lookup dk = some dbs → gm.lookup gk = none →
      Bitmapper.NewEntry dk gk nk vk dm gm nm vm
        = Except.error ("group key " ++ squote ++ gk ++ squote ++ " not found")) ∧
    (∀ dbs gbs, dm.lookup dk = some dbs → gm.lookup gk = some gbs → nm.lookup nk = none →
      Bitmapper.NewEntry dk gk nk vk dm gm nm vm
        = Except.error ("name key " ++ squote ++ nk ++ squote ++ " not found")) ∧
    (∀ dbs gbs nbs, dm.lookup dk = some dbs → gm.lookup gk = some gbs →
      nm.lookup nk = some nbs → vm.lookup vk = none →
      Bitmapper.NewEntry dk gk nk vk dm gm nm vm
        = Except.error ("value key " ++ squote ++ vk ++ squote ++ " not found")) ∧
    (∀ dbs gbs nbs vbs, dm.lookup dk = some dbs → gm.lookup gk = some gbs →
      nm.lookup nk = some nbs → vm.lookup vk = some vbs →
      Bitmapper.NewEntry dk gk nk vk dm gm nm vm = Except.ok ⟨dbs, gbs, nbs, vbs⟩) := by
  refine ⟨?_, ?_, ?_, ?_, ?_⟩
  · intro h1
    simp [Bitmapper.NewEntry, h1]
  · intro dbs h1 h2
    simp [Bitmapper.NewEntry, h1, h2]
  · intro dbs gbs h1 h2 h3
    simp [Bitmapper.NewEntry, h1, h2, h3]
  · intro dbs gbs nbs h1 h2 h3 h4
    simp [Bitmapper.NewEntry, h1, h2, h3, h4]
  · intro dbs gbs nbs vbs h1 h2 h3 h4
    simp [Bitmapper.NewEntry, h1, h2, h3, h4]

/-- Witness for C10 on concrete one-entry maps: a missing group key is
    reported naming the category and the key, and present keys give the
    looked-up BitSets. -/
theorem C10_witness :
    (Bitmapper.NewEntry "d1" "gX" "n1" "v1" [("d1", ⟨[1], 64⟩)] [("g1", ⟨[1], 64⟩)]
        [("n1", ⟨[1], 64⟩)] [("v1", ⟨[1], 64⟩)]
      = Except.error ("group key " ++ squote ++ "gX" ++ squote ++ " not found")) ∧
    (Bitmapper.NewEntry "d1" "g1" "n1" "v1" [("d1", ⟨[1], 64⟩)] [("g1", ⟨[2], 64⟩)]
        [("n1", ⟨[4], 64⟩)] [("v1", ⟨[8], 64⟩)]
      = Except.ok ⟨⟨[1], 64⟩, ⟨[2], 64⟩, ⟨[4], 64⟩, ⟨[8], 64⟩⟩) := by
  constructor
  · exact (C10_entry_lookup "d1" "gX" "n1" "v1" [("d1", ⟨[1], 64⟩)] [("g1", ⟨[1], 64⟩)]
      [("n1", ⟨[1], 64⟩)] [("v1", ⟨[1], 64⟩)]).2.1 ⟨[1], 64⟩ rfl rfl
  · exact (C10_entry_lookup "d1" "g1" "n1" "v1" [("d1", ⟨[1], 64⟩)] [("g1", ⟨[2], 64⟩)]
      [("n1", ⟨[4], 64⟩)] [("v1", ⟨[8], 64⟩)]).2.2.2.2 ⟨[1], 64⟩ ⟨[2], 64⟩ ⟨[4], 64⟩ ⟨[8], 64⟩
      rfl rfl rfl rfl

end Claims
